import Mathlib

/-!
Verification of the uniformity-aware boosting loss family and the staged
report engine of the `lhcb_trigger_ml` repository
(`IPythonWorkflow/uniformgradientboosting.py` and `IPythonWorkflow/reports.py`).

Vectors are lists of reals, matrices are lists of rows.  Elementwise numpy
operations become `List.zipWith`/`List.map`, `numpy.dot` of a matrix with a
vector becomes a row-by-row dot product, python `assert` failures and raised
exceptions become `Except.error`.
-/

namespace LhcbTriggerMl

set_option maxHeartbeats 1000000

abbrev Vec := List ℝ
abbrev Mat := List (List ℝ)

noncomputable section

/-- Dot product of two vectors (`numpy.dot` on 1-d arrays); extra entries of
the longer vector are ignored, as callers always pass equal lengths. -/
def dot (a b : Vec) : ℝ := (List.zipWith (· * ·) a b).sum

/-- `M.dot(v)` for a 2-d matrix (list of rows) and a 1-d vector. -/
def matVec (M : Mat) (v : Vec) : Vec := M.map (fun row => dot row v)

/-- `2 * y - 1`, mapping labels `{0,1}` to `{-1,+1}` (elementwise numpy
arithmetic). -/
def ySigned (y : Vec) : Vec := y.map (fun t => 2 * t - 1)

/-- Mathematical transpose of an `r × n` matrix, the meaning of scipy's
`coefficients_matrix.transpose()`; `n` is the stored column count
(`shape[1]`) of the sparse matrix. -/
def transp (n : Nat) (M : Mat) : Mat :=
  (List.range n).map (fun j => M.map (fun row => row.getD j 0))

/-- State stored by `KnnLossFunction.__init__` on success: the coefficient
matrix, its cached transpose, the column count `shape[1]`, and the
per-row initial weights. -/
structure KnnLossFunction where
  coefficients_matrix : Mat
  coefficients_matrix_t : Mat
  n_cols : Nat
  initial_weights : Vec

/-- `KnnLossFunction.__init__` (uniformgradientboosting.py lines 62-72):
rejects any class count other than 2 before touching the matrix, caches the
transpose, defaults the initial weights to all-ones of length
`coefficients_matrix.shape[0]`, and asserts the length of explicitly given
weights. -/
def knnLossInit (n_classes : Int) (M : Mat) (n_cols : Nat)
    (initial_weights : Option Vec) : Except String KnnLossFunction :=
  if n_classes ≠ 2 then .error "Only 2 classes supported!"
  else
    match initial_weights with
    | none => .ok ⟨M, transp n_cols M, n_cols, List.replicate M.length 1⟩
    | some w =>
        if w.length = M.length then .ok ⟨M, transp n_cols M, n_cols, w⟩
        else .error "Different size"

/-- The loss value computed after the size assert of
`KnnLossFunction.__call__` passes (lines 77-79):
`exponents = numpy.exp(-coefficients_matrix.dot(y_signed * ravel(pred)))`,
result `(initial_weights * exponents).sum()`. -/
def lossValue (M : Mat) (w0 y pred : Vec) : ℝ :=
  let exponents := (matVec M (List.zipWith (· * ·) (ySigned y) pred)).map
    (fun v => Real.exp (-v))
  (List.zipWith (· * ·) w0 exponents).sum

/-- `KnnLossFunction.__call__` (lines 74-79), including the size assert
`len(y) == len(pred) == coefficients_matrix.shape[1]`. -/
def lossCall (M : Mat) (n : Nat) (w0 y pred : Vec) : Except String ℝ :=
  if y.length = pred.length ∧ pred.length = n then .ok (lossValue M w0 y pred)
  else .error "something is wrong with sizes"

/-- The vector computed after the size assert of
`KnnLossFunction.negative_gradient` passes (lines 83-86):
`coefficients_matrix_t.dot(initial_weights * exponents) * y_signed`. -/
def negGradientValue (M : Mat) (n : Nat) (w0 y pred : Vec) : Vec :=
  let exponents := (matVec M (List.zipWith (· * ·) (ySigned y) pred)).map
    (fun v => Real.exp (-v))
  List.zipWith (· * ·)
    (matVec (transp n M) (List.zipWith (· * ·) w0 exponents)) (ySigned y)

/-- `KnnLossFunction.negative_gradient` (lines 81-86), including the size
assert. -/
def negative_gradient (M : Mat) (n : Nat) (w0 y pred : Vec) :
    Except String Vec :=
  if y.length = pred.length ∧ pred.length = n then
    .ok (negGradientValue M n w0 y pred)
  else .error "something is wrong with sizes"

/-- `numpy` boolean comparison `terminal_regions == leaf`, cast to `0/1`
reals by the subsequent multiplication. -/
def indicatorEq (terminal_regions : List Int) (leaf : Int) : Vec :=
  terminal_regions.map (fun r => if r = leaf then 1 else 0)

/-- The per-stage cache set by `KnnLossFunction.update_terminal_regions`
(line 94): `initial_weights * numpy.exp(-M.dot(y_signed * ravel(y_pred)))`,
computed from the predictions before the new learner is incorporated. -/
def updateExponentsDef (M : Mat) (w0 y y_pred : Vec) : Vec :=
  List.zipWith (· * ·) w0
    ((matVec M (List.zipWith (· * ·) (ySigned y) y_pred)).map
      (fun v => Real.exp (-v)))

/-- `KnnLossFunction._update_terminal_region` (lines 97-103): the value
written into `tree.value[leaf, 0, 0]`, given the cached `update_exponents`
vector `ue`. -/
def updateTerminalRegionAlpha (M : Mat) (ue : Vec)
    (terminal_regions : List Int) (leaf : Int) (y : Vec) : ℝ :=
  let z := matVec M
    (List.zipWith (· * ·) (indicatorEq terminal_regions leaf) (ySigned y))
  (List.zipWith (· * ·) ue z).sum /
    ((List.zipWith (· * ·) (List.zipWith (· * ·) ue z) z).sum + 1e-10)

/-- `KnnLossFunction.update_terminal_regions` (lines 91-95).  The cache
`update_exponents` is computed once from `y_pred` and only then the leaves
of the new learner are visited.  Modelled from the spec: the delegated
`LossFunction.update_terminal_regions` loop of the external boosting driver
is not part of the repository; per the spec's external-interface contract it
invokes the per-leaf hook once per terminal leaf of the new learner. -/
def updateTerminalRegions (M : Mat) (w0 y y_pred : Vec)
    (terminal_regions : List Int) (leaves : List Int) : List (Int × ℝ) :=
  let ue := updateExponentsDef M w0 y y_pred
  leaves.map (fun leaf => (leaf, updateTerminalRegionAlpha M ue terminal_regions leaf y))

end

/-! ## Coefficient-matrix construction (`PairwiseKnnLossFunction.__init__`,
`SimpleKnnLossFunction.__init__`, lines 106-131) -/

/-- Merge rule shared by both constructors (lines 111 and 126):
`knn_bg[is_signal, :] = knn_signal[is_signal, :]` — every signal-labeled
sample's background-neighbor row is overwritten with its signal-neighbor
row, background samples keep their background-neighbor row. -/
def mergedKnn (is_signal : List Bool) (knn_signal knn_bg : List (List Nat)) :
    List (List Nat) :=
  List.zipWith (fun s p => if s then p.1 else p.2) is_signal
    (knn_signal.zip knn_bg)

/-- Shape argument of a `scipy.sparse.csr_matrix` constructor call: either a
`(rows, cols)` dimension pair or a bare integer. -/
inductive CsrShape
  | pair (rows cols : Nat)
  | scalar (n : Nat)

/-- Modelled from the spec: `scipy.sparse.csr_matrix` is an external
collaborator (not part of the repository).  Its constructor normalizes the
`shape` keyword with `tuple(shape)`, so a dimension pair yields the empty
(all-zero) matrix of those dimensions while a bare integer raises a
`TypeError` before any matrix exists. -/
def csrMatrixEmpty : CsrShape → Except String (List (List ℚ))
  | .pair rows cols => .ok (List.replicate rows (List.replicate cols 0))
  | .scalar _ => .error "TypeError: int object is not iterable"

/-- `m[r, c] += 1` on a dense row-major matrix. -/
def incrEntry (m : List (List ℚ)) (r c : Nat) : List (List ℚ) :=
  m.set r ((m.getD r []).set c ((m.getD r []).getD c 0 + 1))

/-- The fill loop of `PairwiseKnnLossFunction.__init__` (lines 113-117):
for each sample `i` and slot `j`, with `row = i * knn + j`, increment
`(row, i)` and then `(row, knn_bg[i, j])`. -/
def pairwiseFill (m0 : List (List ℚ)) (knn_bg : List (List Nat))
    (knn : Nat) : List (List ℚ) :=
  (List.range knn_bg.length).foldl (fun m i =>
    (List.range knn).foldl (fun m j =>
      incrEntry (incrEntry m (i * knn + j) i) (i * knn + j)
        ((knn_bg.getD i []).getD j 0)) m) m0

/-- The fill loop of `SimpleKnnLossFunction.__init__` (lines 128-130):
for each sample `i` and slot `j`, increment `(i, knn_bg[i, j])`. -/
def simpleFill (m0 : List (List ℚ)) (knn_bg : List (List Nat))
    (knn : Nat) : List (List ℚ) :=
  (List.range knn_bg.length).foldl (fun m i =>
    (List.range knn).foldl (fun m j =>
      incrEntry m i ((knn_bg.getD i []).getD j 0)) m) m0

/-- `PairwiseKnnLossFunction.__init__` (lines 107-118) up to the coefficient
matrix it hands to `KnnLossFunction.__init__`.  The neighbor tables
`knn_signal`/`knn_bg` stand for the results of the external
`commonutils.computeSignalKnnIndices` calls; `nTrain = len(trainX)`.  The
source calls `sparse.csr_matrix(len(trainX) * knn, len(trainX))`: the first
positional argument `nTrain * knn` lands in the dense-data slot and the
second, `nTrain`, is the `shape` argument — a bare integer. -/
def pairwiseKnnMatrix (is_signal : List Bool)
    (knn_signal knn_bg : List (List Nat)) (nTrain knn : Nat) :
    Except String (List (List ℚ)) :=
  let knn_bg2 := mergedKnn is_signal knn_signal knn_bg
  (csrMatrixEmpty (.scalar nTrain)).map (fun m => pairwiseFill m knn_bg2 knn)

/-- `SimpleKnnLossFunction.__init__` (lines 122-131) up to the coefficient
matrix; the source calls `sparse.csr_matrix(len(trainX), len(trainX))`, again
passing a bare integer as the `shape` argument. -/
def simpleKnnMatrix (is_signal : List Bool)
    (knn_signal knn_bg : List (List Nat)) (nTrain knn : Nat) :
    Except String (List (List ℚ)) :=
  let knn_bg2 := mergedKnn is_signal knn_signal knn_bg
  (csrMatrixEmpty (.scalar nTrain)).map (fun m => simpleFill m knn_bg2 knn)

/-! ## `MyGradientBoostingClassifier._check_params` (lines 134-173) -/

/-- The `loss` constructor parameter: either an already-built loss object
(any `LossFunction` instance, in particular a `KnnLossFunction`) or a name
to resolve in the external driver's registry. -/
inductive LossParam
  | custom (l : KnnLossFunction)
  | named (s : String)

/-- A custom `init` estimator; the check only looks for `fit`/`predict`
attributes. -/
structure Estimator where
  has_fit : Bool
  has_predict : Bool

/-- The hyperparameters read by `_check_params`. -/
structure GBParams where
  n_estimators : Int
  learning_rate : ℚ
  subsample : ℚ
  loss : LossParam
  init : Option Estimator
  alpha : ℚ
  n_classes : Nat

/-- The loss object stored into `self.loss_` by `_check_params`. -/
inductive ResolvedLoss
  | custom (l : KnnLossFunction)
  | binomialDeviance
  | multinomialDeviance
  | fromRegistry (name : String)
  | fromRegistryWithAlpha (name : String) (alpha : ℚ)

/-- The loss-resolution block of `_check_params` (lines 143-159):
a `LossFunction` instance is used directly; otherwise the name must be in
the external registry `LOSS_FUNCTIONS`, `deviance` maps to multinomial or
binomial deviance according to the class count, and `huber`/`quantile`
additionally receive the `alpha` parameter. -/
def resolveLoss (registry : List String) (p : GBParams) :
    Except String ResolvedLoss :=
  match p.loss with
  | .custom l => .ok (.custom l)
  | .named s =>
      if s ∉ registry then .error "Loss not supported."
      else if s = "deviance" then
        .ok (if 2 < p.n_classes then .multinomialDeviance else .binomialDeviance)
      else if s = "huber" ∨ s = "quantile" then
        .ok (.fromRegistryWithAlpha s p.alpha)
      else .ok (.fromRegistry s)

/-- `MyGradientBoostingClassifier._check_params` (lines 135-173), with the
checks in source order; `registry` stands for the external driver's
`LOSS_FUNCTIONS` table.  Returns the resolved loss on success. -/
def check_params (registry : List String) (p : GBParams) :
    Except String ResolvedLoss :=
  if p.n_estimators ≤ 0 then .error "n_estimators must be greater than 0"
  else if p.learning_rate ≤ 0 then .error "learning_rate must be greater than 0"
  else
    match resolveLoss registry p with
    | .error e => .error e
    | .ok loss_ =>
        if p.subsample ≤ 0 ∨ 1 < p.subsample then .error "subsample must be in (0,1]"
        else if (match p.init with
                 | some est => !(est.has_fit && est.has_predict)
                 | none => false) then .error "init must be valid estimator"
        else if ¬(0 < p.alpha ∧ p.alpha < 1) then .error "alpha must be in (0.0, 1.0)"
        else .ok loss_

/-! ## `Predictions` (reports.py lines 84-156) -/

/-- A prediction-probability array of shape `[n_samples, n_classes]`. -/
abbrev PredArray := List (List ℚ)

/-- A fitted classifier as seen by `Predictions.__init__`: its
`predict_proba(X)` result on the fixed test set, and the
`staged_predict_proba(X)` sequence when the attribute exists (`none` means
the attribute access raises `AttributeError`). -/
structure Classifier where
  predict_proba : PredArray
  staged_predict_proba : Option (List PredArray)

/-- `Predictions.__init__` in full (`low_memory=False`) mode (reports.py
lines 102-110): per classifier, try the staged sequence and keep its last
element as the final prediction; on `AttributeError` fall back to the single
`predict_proba` call and record no staged entry.  An empty staged sequence
would make `[-1]` raise `IndexError`. -/
def buildPredictionsFull : List (String × Classifier) →
    Except String (List (String × PredArray) × List (String × List PredArray))
  | [] => .ok ([], [])
  | (name, c) :: rest =>
    match c.staged_predict_proba with
    | some l =>
        match l.getLast? with
        | some last => do
            let (p, s) ← buildPredictionsFull rest
            return ((name, last) :: p, (name, l) :: s)
        | none => .error "IndexError: list index out of range"
    | none => do
        let (p, s) ← buildPredictionsFull rest
        return ((name, c.predict_proba) :: p, s)

/-- Spec-side characterization used to compare against
`buildPredictionsFull`: the final prediction recorded per classifier is the
last staged prediction when staged prediction is supported, and the plain
`predict_proba` result otherwise. -/
def specFinalPrediction (c : Classifier) : PredArray :=
  match c.staged_predict_proba with
  | some l => l.getLastD c.predict_proba
  | none => c.predict_proba

/-- The inner loop of `Predictions._get_stages` for an explicit stage list
(reports.py lines 149-155): enumerate the staged predictions and keep the
stages requested; `stages = set(stages)` only affects membership testing. -/
def getStagesFor (stage_preds : List PredArray) (stages : List Nat) :
    List (Nat × PredArray) :=
  stage_preds.enum.filter (fun p => stages.contains p.1)

/-- `Predictions._get_stages` over the stored staged predictions (full,
non-low-memory mode, where `_get_staged_proba` returns
`self.staged_predictions`). -/
def get_stages (staged_predictions : List (String × List PredArray))
    (stages : List Nat) : List (String × List (Nat × PredArray)) :=
  staged_predictions.map (fun nl => (nl.1, getStagesFor nl.2 stages))

/-! ## Helper lemmas -/

theorem getD_zipWith {α β γ : Type} (f : α → β → γ) (a : List α) (b : List β)
    (i : Nat) (da : α) (db : β) (d : γ) (ha : i < a.length) (hb : i < b.length) :
    (List.zipWith f a b).getD i d = f (a.getD i da) (b.getD i db) := by
  induction a generalizing b i with
  | nil => cases ha
  | cons x a ih =>
    cases b with
    | nil => cases hb
    | cons z b =>
      cases i with
      | zero => rfl
      | succ i =>
        exact ih b i (Nat.lt_of_succ_lt_succ ha) (Nat.lt_of_succ_lt_succ hb)

theorem getD_map {α β : Type} (f : α → β) (l : List α) (i : Nat) (d : β)
    (da : α) (h : i < l.length) : (l.map f).getD i d = f (l.getD i da) := by
  induction l generalizing i with
  | nil => cases h
  | cons x l ih =>
    cases i with
    | zero => rfl
    | succ i => exact ih i (Nat.lt_of_succ_lt_succ h)

theorem getD_range (n i : Nat) (d : Nat) (h : i < n) :
    (List.range n).getD i d = i := by
  rw [List.getD_eq_getElem (List.range n) d (by simpa using h)]
  exact List.getElem_range _ _

theorem getD_mem {α : Type} (l : List α) (i : Nat) (d : α) (h : i < l.length) :
    l.getD i d ∈ l := by
  rw [List.getD_eq_getElem l d h]
  exact List.getElem_mem h

theorem getD_out_of_range {α : Type} (l : List α) (i : Nat) (d : α)
    (h : l.length ≤ i) : l.getD i d = d := by
  induction l generalizing i with
  | nil => rfl
  | cons x l ih =>
    cases i with
    | zero => cases h
    | succ i => exact ih i (Nat.le_of_succ_le_succ h)

/-! ## C1, C4, C10 -/

/-- C1: for a binary label vector `y` and prediction vector `pred`, both of
length `N` = the coefficient matrix's column count, `KnnLossFunction.__call__`
returns `sum(w0 * exp(-M . ((2*y - 1) * pred)))`. -/
theorem C1_loss_value (M : Mat) (n : Nat) (w0 y pred : Vec)
    (hy : y.length = n) (hp : pred.length = n) :
    lossCall M n w0 y pred =
      .ok ((List.zipWith (· * ·) w0
        ((matVec M (List.zipWith (· * ·) (y.map (fun t => 2 * t - 1)) pred)).map
          (fun v => Real.exp (-v)))).sum) := by
  simp [lossCall, hy, hp, lossValue, ySigned]

theorem C1_loss_value_witness :
    lossCall [[3]] 1 [1] [1] [0] =
      .ok ((List.zipWith (· * ·) [(1 : ℝ)]
        ((matVec [[3]] (List.zipWith (· * ·) ([(1 : ℝ)].map (fun t => 2 * t - 1)) [0])).map
          (fun v => Real.exp (-v)))).sum) :=
  C1_loss_value [[3]] 1 [1] [1] [0] rfl rfl

/-- C4: a class count other than 2 makes `KnnLossFunction.__init__` raise
`NotImplementedError` before any matrix work, so no coefficient matrix and
no weights are stored. -/
theorem C4_two_classes_only (n_classes : Int) (M : Mat) (n_cols : Nat)
    (w : Option Vec) (h : n_classes ≠ 2) :
    knnLossInit n_classes M n_cols w = .error "Only 2 classes supported!" := by
  simp [knnLossInit, h]

theorem C4_two_classes_only_witness :
    knnLossInit 3 [] 0 none = .error "Only 2 classes supported!" :=
  C4_two_classes_only 3 [] 0 none (by decide)

/-- C10: the loss evaluation and the negative-gradient computation succeed
exactly when `len(y) == len(pred) == shape[1]`; in every other case the size
assert fails before any matrix arithmetic. -/
theorem C10_size_assert (M : Mat) (n : Nat) (w0 y pred : Vec) :
    ((∃ v, lossCall M n w0 y pred = .ok v) ↔
      (y.length = pred.length ∧ pred.length = n)) ∧
    ((∃ v, negative_gradient M n w0 y pred = .ok v) ↔
      (y.length = pred.length ∧ pred.length = n)) ∧
    (¬(y.length = pred.length ∧ pred.length = n) →
      lossCall M n w0 y pred = .error "something is wrong with sizes" ∧
      negative_gradient M n w0 y pred = .error "something is wrong with sizes") := by
  unfold lossCall negative_gradient
  by_cases h : y.length = pred.length ∧ pred.length = n <;> simp [h]

theorem C10_size_assert_witness :
    lossCall [[3]] 1 [1] [1] [0, 0] = .error "something is wrong with sizes" :=
  ((C10_size_assert [[3]] 1 [1] [1] [0, 0]).2.2 (by decide)).1

/-! ## C5 -/

/-- C5 (code bug): both knn-loss constructors pass the sample count as a
bare-integer `shape` argument to the sparse-matrix constructor, which raises
before any increment is performed — no coefficient matrix of shape
`[N*k, N]` (Pairwise) or `[N, N]` (Simple) is ever built.  Shown at the
concrete input `N = 2`, `k = 1`. -/
theorem C5_constructor_raises :
    pairwiseKnnMatrix [true, false] [[0], [0]] [[1], [1]] 2 1 =
      .error "TypeError: int object is not iterable" ∧
    simpleKnnMatrix [true, false] [[0], [0]] [[1], [1]] 2 1 =
      .error "TypeError: int object is not iterable" :=
  ⟨rfl, rfl⟩

/-! ## C7 -/

/-- C7: `_check_params` raises a configuration error whenever the learner
count is not positive, the learning rate is not positive, or the subsample
fraction lies outside `(0, 1]`; a supplied loss-function instance is used
directly as the fitted loss, and the registry name `deviance` resolves to
multinomial or binomial deviance according to the class count. -/
theorem C7_check_params (registry : List String) (p : GBParams) :
    (p.n_estimators ≤ 0 →
      check_params registry p = .error "n_estimators must be greater than 0") ∧
    (0 < p.n_estimators → p.learning_rate ≤ 0 →
      check_params registry p = .error "learning_rate must be greater than 0") ∧
    ((p.subsample ≤ 0 ∨ 1 < p.subsample) →
      ∃ e, check_params registry p = .error e) ∧
    (∀ l r, p.loss = .custom l → check_params registry p = .ok r →
      r = .custom l) ∧
    (∀ r, p.loss = .named "deviance" → check_params registry p = .ok r →
      r = if 2 < p.n_classes then .multinomialDeviance else .binomialDeviance) := by
  refine ⟨fun h1 => by simp [check_params, h1], fun h0 h1 => ?_, ?_, ?_, ?_⟩
  · have : ¬ p.n_estimators ≤ 0 := not_le.mpr h0
    simp [check_params, this, h1]
  · intro hsub
    unfold check_params
    repeat' split
    all_goals exact ⟨_, rfl⟩
  · intro l r hl hok
    have hres : resolveLoss registry p = .ok (.custom l) := by
      simp [resolveLoss, hl]
    unfold check_params at hok
    simp only [hres] at hok
    split at hok
    · cases hok
    · split at hok
      · cases hok
      · split at hok
        · cases hok
        · split at hok
          · cases hok
          · split at hok
            · cases hok
            · cases hok
              rfl
  · intro r hl hok
    have hdev : resolveLoss registry p = .error "Loss not supported." ∨
        resolveLoss registry p =
          .ok (if 2 < p.n_classes then .multinomialDeviance else .binomialDeviance) := by
      rw [resolveLoss, hl]
      by_cases hr : "deviance" ∈ registry
      · right
        simp [hr]
      · left
        simp [hr]
    unfold check_params at hok
    rcases hdev with hdev | hdev <;> simp only [hdev] at hok
    · split at hok
      · cases hok
      · split at hok
        · cases hok
        · cases hok
    · split at hok
      · cases hok
      · split at hok
        · cases hok
        · split at hok
          · cases hok
          · split at hok
            · cases hok
            · split at hok
              · cases hok
              · cases hok
                rfl

theorem C7_check_params_witness :
    check_params ["ls"] ⟨0, 1, 1, .named "ls", none, 1 / 2, 2⟩ =
      .error "n_estimators must be greater than 0" :=
  (C7_check_params ["ls"] ⟨0, 1, 1, .named "ls", none, 1 / 2, 2⟩).1 (by decide)

/-! ## C6 -/

/-- C6: after the override rule `knn_bg[is_signal, :] = knn_signal[is_signal, :]`,
every sample's final neighbor row lies entirely in the sample's own label
partition — signal samples keep signal neighbors, background samples keep
background neighbors.  The hypotheses are the contract of the external
neighbor search `computeSignalKnnIndices`: each call returns, for every
sample, neighbor indices drawn from the masked partition only. -/
theorem C6_label_purity (is_signal : List Bool)
    (knn_signal knn_bg : List (List Nat))
    (hls : knn_signal.length = is_signal.length)
    (hlb : knn_bg.length = is_signal.length)
    (hs : ∀ row ∈ knn_signal, ∀ j ∈ row, is_signal.getD j false = true)
    (hb : ∀ row ∈ knn_bg, ∀ j ∈ row,
      (is_signal.map (fun b => !b)).getD j false = true)
    (i : Nat) (hi : i < (mergedKnn is_signal knn_signal knn_bg).length) :
    ∀ j ∈ (mergedKnn is_signal knn_signal knn_bg).getD i [],
      is_signal.getD j false = is_signal.getD i false := by
  have hzip : (knn_signal.zip knn_bg).length = is_signal.length := by
    rw [List.length_zip, hls, hlb, Nat.min_self]
  have hlen : (mergedKnn is_signal knn_signal knn_bg).length = is_signal.length := by
    unfold mergedKnn
    rw [List.length_zipWith, hzip, Nat.min_self]
  have hii : i < is_signal.length := hlen ▸ hi
  have hrow : (mergedKnn is_signal knn_signal knn_bg).getD i [] =
      if is_signal.getD i false then knn_signal.getD i []
      else knn_bg.getD i [] := by
    unfold mergedKnn
    rw [getD_zipWith (fun s p => if s then p.1 else p.2) is_signal
      (knn_signal.zip knn_bg) i false ([], []) [] hii (hzip ▸ hii)]
    have : (knn_signal.zip knn_bg).getD i ([], []) =
        (knn_signal.getD i [], knn_bg.getD i []) := by
      rw [List.zip]
      exact getD_zipWith Prod.mk knn_signal knn_bg i [] [] ([], [])
        (hls ▸ hii) (hlb ▸ hii)
    rw [this]
  intro j hj
  rw [hrow] at hj
  by_cases hsig : is_signal.getD i false = true
  · rw [hsig]
    rw [if_pos hsig] at hj
    exact hs _ (getD_mem knn_signal i [] (hls ▸ hii)) j hj
  · have hsig' : is_signal.getD i false = false := by
      simpa using hsig
    rw [hsig']
    rw [if_neg hsig] at hj
    have hmask := hb _ (getD_mem knn_bg i [] (hlb ▸ hii)) j hj
    by_cases hjlen : j < is_signal.length
    · rw [getD_map (fun b => !b) is_signal j false false hjlen] at hmask
      simpa using hmask
    · rw [getD_out_of_range _ _ _
        (by simpa using Nat.le_of_not_lt hjlen)] at hmask
      cases hmask

theorem C6_label_purity_witness :
    [true, true, false].getD 1 false = [true, true, false].getD 0 false :=
  C6_label_purity [true, true, false] [[1], [0], [0]] [[2], [2], [2]] rfl rfl
    (by decide) (by decide) 0 (by decide) 1 (by decide)

/-! ## C3 -/

theorem lookup_map_self (leaves : List Int) (f : Int → ℝ) (leaf : Int)
    (h : leaf ∈ leaves) :
    (leaves.map (fun l => (l, f l))).lookup leaf = some (f leaf) := by
  induction leaves with
  | nil => cases h
  | cons a t ih =>
    by_cases ha : leaf = a
    · subst ha
      simp [List.lookup]
    · have ht : leaf ∈ t := by
        rcases List.mem_cons.mp h with h' | h'
        · exact absurd h' ha
        · exact h'
      have hbeq : (leaf == a) = false := beq_eq_false_iff_ne.mpr ha
      simp only [List.map_cons, List.lookup, hbeq]
      exact ih ht

theorem mem_zipWith_mul_nonneg : ∀ (a b : Vec), (∀ x ∈ a, 0 ≤ x) →
    (∀ x ∈ b, 0 ≤ x) → ∀ x ∈ List.zipWith (· * ·) a b, 0 ≤ x
  | [], _, _, _ => by simp
  | _ :: _, [], _, _ => by simp
  | u :: a, v :: b, ha, hb => by
    intro x hx
    rcases List.mem_cons.mp hx with h' | h'
    · subst h'
      exact mul_nonneg (ha u (by simp)) (hb v (by simp))
    · exact mem_zipWith_mul_nonneg a b
        (fun x hx => ha x (List.mem_cons_of_mem _ hx))
        (fun x hx => hb x (List.mem_cons_of_mem _ hx)) x h'

theorem updateExponents_nonneg (M : Mat) (w0 y y_pred : Vec)
    (hw : ∀ w ∈ w0, 0 ≤ w) :
    ∀ x ∈ updateExponentsDef M w0 y y_pred, 0 ≤ x := by
  unfold updateExponentsDef
  refine mem_zipWith_mul_nonneg _ _ hw ?_
  intro x hx
  rcases List.mem_map.mp hx with ⟨v, _, rfl⟩
  exact (Real.exp_pos _).le

theorem sum_zip_sq_nonneg (ue z : Vec) (h : ∀ a ∈ ue, 0 ≤ a) :
    0 ≤ (List.zipWith (· * ·) (List.zipWith (· * ·) ue z) z).sum := by
  induction ue generalizing z with
  | nil => simp
  | cons a t ih =>
    cases z with
    | nil => simp
    | cons b zt =>
      simp only [List.zipWith_cons_cons, List.sum_cons]
      have h1 : 0 ≤ a * b * b := by
        have ha := h a (by simp)
        have hb : a * b * b = a * (b * b) := by ring
        rw [hb]
        exact mul_nonneg ha (mul_self_nonneg b)
      have h2 := ih zt (fun x hx => h x (List.mem_cons_of_mem _ hx))
      linarith

/-- C3: for every leaf region of the new learner, the written leaf value is
`Σ(ue ⊙ z) / (Σ(ue ⊙ z ⊙ z) + 1e-10)` with `z = M · (indicator ⊙ y_signed)`,
where `ue = w0 ⊙ exp(-M · (y_signed ⊙ pred_before))` is computed once for
the stage from the predictions before the new learner; with nonnegative
initial weights the epsilon-guarded denominator is strictly positive, so it
is never zero even when `Σ(ue ⊙ z ⊙ z)` vanishes. -/
theorem C3_leaf_update (M : Mat) (w0 y y_pred : Vec) (tr : List Int)
    (leaves : List Int) (leaf : Int) (hleaf : leaf ∈ leaves)
    (hw : ∀ w ∈ w0, 0 ≤ w) :
    (updateTerminalRegions M w0 y y_pred tr leaves).lookup leaf =
      some ((List.zipWith (· * ·) (updateExponentsDef M w0 y y_pred)
              (matVec M (List.zipWith (· * ·) (indicatorEq tr leaf) (ySigned y)))).sum /
            ((List.zipWith (· * ·)
                (List.zipWith (· * ·) (updateExponentsDef M w0 y y_pred)
                  (matVec M (List.zipWith (· * ·) (indicatorEq tr leaf) (ySigned y))))
                (matVec M (List.zipWith (· * ·) (indicatorEq tr leaf) (ySigned y)))).sum
              + 1e-10)) ∧
    0 < (List.zipWith (· * ·)
          (List.zipWith (· * ·) (updateExponentsDef M w0 y y_pred)
            (matVec M (List.zipWith (· * ·) (indicatorEq tr leaf) (ySigned y))))
          (matVec M (List.zipWith (· * ·) (indicatorEq tr leaf) (ySigned y)))).sum
        + 1e-10 := by
  constructor
  · unfold updateTerminalRegions
    rw [lookup_map_self leaves _ leaf hleaf]
    rfl
  · have h0 := sum_zip_sq_nonneg (updateExponentsDef M w0 y y_pred)
      (matVec M (List.zipWith (· * ·) (indicatorEq tr leaf) (ySigned y)))
      (updateExponents_nonneg M w0 y y_pred hw)
    have heps : (0 : ℝ) < 1e-10 := by norm_num
    linarith

theorem C3_leaf_update_witness :
    0 < (List.zipWith (· * ·)
          (List.zipWith (· * ·) (updateExponentsDef [[1]] [1] [1] [0])
            (matVec [[1]] (List.zipWith (· * ·) (indicatorEq [0] 0) (ySigned [1]))))
          (matVec [[1]] (List.zipWith (· * ·) (indicatorEq [0] 0) (ySigned [1])))).sum
        + 1e-10 :=
  (C3_leaf_update [[1]] [1] [1] [0] [0] [0] 0 (by decide)
    (by intro w hw; simp at hw; subst hw; norm_num)).2

/-! ## C8 -/

/-- C8: in full (non-low-memory) mode, a classifier without staged-prediction
support is handled silently — no error, its predictions entry is the single
`predict_proba` result and it gets no staged entry — while classifiers with
a (nonempty) staged sequence get the full sequence recorded, and their
predictions entry is the sequence's last element. -/
theorem C8_full_mode (clfs : List (String × Classifier))
    (h : ∀ p ∈ clfs, p.2.staged_predict_proba ≠ some []) :
    (buildPredictionsFull clfs =
      .ok (clfs.map (fun p => (p.1, specFinalPrediction p.2)),
           clfs.filterMap (fun p =>
             p.2.staged_predict_proba.map (fun l => (p.1, l))))) ∧
    (∀ (c : Classifier) (l : List PredArray) (hl : l ≠ []),
      c.staged_predict_proba = some l → specFinalPrediction c = l.getLast hl) := by
  constructor
  · induction clfs with
    | nil => rfl
    | cons p rest ih =>
      obtain ⟨name, c⟩ := p
      have hrest := ih (fun q hq => h q (List.mem_cons_of_mem _ hq))
      cases hc : c.staged_predict_proba with
      | none =>
        simp [buildPredictionsFull, hc, hrest, specFinalPrediction]
      | some l =>
        cases l with
        | nil => exact absurd hc (h (name, c) (by simp))
        | cons a l' =>
          have hlast : (a :: l').getLast? = some ((a :: l').getLast (by simp)) :=
            List.getLast?_eq_getLast _ _
          have hfin : specFinalPrediction c = (a :: l').getLast (by simp) := by
            simp only [specFinalPrediction, hc]
            rw [List.getLastD_eq_getLast?, hlast]
            rfl
          simp [buildPredictionsFull, hc, hlast, hrest, hfin]
  · intro c l hl hc
    simp only [specFinalPrediction, hc]
    rw [List.getLastD_eq_getLast?, List.getLast?_eq_getLast l hl]
    rfl

theorem C8_full_mode_witness :
    buildPredictionsFull
      [("a", ⟨[[1]], none⟩), ("b", ⟨[[0]], some [[[2]], [[3]]]⟩)] =
      .ok ([("a", [[1]]), ("b", [[3]])], [("b", [[[2]], [[3]]])]) := by
  have h := (C8_full_mode
    [("a", ⟨[[1]], none⟩), ("b", ⟨[[0]], some [[[2]], [[3]]]⟩)]
    (by intro p hp; fin_cases hp <;> simp)).1
  simpa [specFinalPrediction] using h

/-! ## C9 -/

theorem lookup_enumFrom_filter (stages : List Nat) :
    ∀ (l : List PredArray) (k i : Nat),
    ((List.enumFrom k l).filter (fun p => stages.contains p.1)).lookup i =
      if i ∈ stages then (if k ≤ i then l[i - k]? else none) else none := by
  intro l
  induction l with
  | nil =>
    intro k i
    by_cases h1 : i ∈ stages <;> by_cases h2 : k ≤ i <;>
      simp [List.enumFrom, List.lookup, h1, h2]
  | cons a l ih =>
    intro k i
    have henum : List.enumFrom k (a :: l) = (k, a) :: List.enumFrom (k + 1) l := rfl
    rw [henum]
    by_cases hk : k ∈ stages
    · have hck : (stages.contains k) = true := List.elem_iff.mpr hk
      rw [List.filter_cons_of_pos (by simpa using hck)]
      by_cases hik : i = k
      · subst hik
        simp [List.lookup, hk]
      · have hbeq : (i == k) = false := beq_eq_false_iff_ne.mpr hik
        rw [List.lookup, hbeq]
        rw [ih (k + 1) i]
        by_cases h1 : i ∈ stages
        · simp only [h1, if_true]
          by_cases h2 : k ≤ i
          · have h3 : k + 1 ≤ i := Nat.lt_of_le_of_ne h2 (Ne.symm hik)
            have h4 : i - k = (i - (k + 1)) + 1 := by omega
            rw [if_pos h2, if_pos h3, h4]
            simp
          · rw [if_neg h2, if_neg (by omega)]
        · simp [h1]
    · have hck : (stages.contains k) = false :=
        Bool.eq_false_iff.mpr (fun hc => hk (List.elem_iff.mp hc))
      rw [List.filter_cons_of_neg (by simpa [hck] using hk)]
      rw [ih (k + 1) i]
      by_cases h1 : i ∈ stages
      · have hik : i ≠ k := fun he => hk (he ▸ h1)
        simp only [h1, if_true]
        by_cases h2 : k ≤ i
        · have h3 : k + 1 ≤ i := Nat.lt_of_le_of_ne h2 (Ne.symm hik)
          have h4 : i - k = (i - (k + 1)) + 1 := by omega
          rw [if_pos h2, if_pos h3, h4]
          simp
        · rw [if_neg h2, if_neg (by omega)]
      · simp [h1]

/-- C9: selecting an explicit stage subset keeps, per classifier, exactly the
requested stage indices that exist in the staged sequence, each mapped to
its prediction array; missing or unrequested stages are simply absent, and
the per-classifier keys of the result mirror the staged store. -/
theorem C9_get_stages (staged : List (String × List PredArray))
    (stages : List Nat) :
    ((get_stages staged stages).map Prod.fst = staged.map Prod.fst) ∧
    (∀ name l, (name, l) ∈ staged →
      (name, getStagesFor l stages) ∈ get_stages staged stages) ∧
    (∀ (l : List PredArray) (i : Nat),
      (getStagesFor l stages).lookup i =
        if i ∈ stages then l[i]? else none) := by
  refine ⟨?_, ?_, ?_⟩
  · simp [get_stages]
  · intro name l hmem
    exact List.mem_map.mpr ⟨(name, l), hmem, rfl⟩
  · intro l i
    unfold getStagesFor
    rw [show l.enum = List.enumFrom 0 l from rfl]
    rw [lookup_enumFrom_filter stages l 0 i]
    simp

/-! ## C2 helpers -/

theorem dot_cons (x y : ℝ) (r u : Vec) :
    dot (x :: r) (y :: u) = x * y + dot r u := by
  simp [dot]

theorem zipWith_mul_set_right (a : Vec) : ∀ (b : Vec) (i : Nat) (x : ℝ),
    i < a.length →
    List.zipWith (· * ·) a (b.set i x) =
      (List.zipWith (· * ·) a b).set i (a.getD i 0 * x) := by
  induction a with
  | nil => intro b i x h; cases h
  | cons u a ih =>
    intro b i x h
    cases b with
    | nil => simp
    | cons v b =>
      cases i with
      | zero => rfl
      | succ i =>
        simp only [List.set_cons_succ, List.zipWith_cons_cons,
          List.getD_cons_succ]
        rw [ih b i x (Nat.lt_of_succ_lt_succ h)]

theorem dot_set (row : Vec) : ∀ (u : Vec) (i : Nat) (c : ℝ),
    i < row.length → i < u.length →
    dot row (u.set i c) =
      dot row u + row.getD i 0 * c - row.getD i 0 * u.getD i 0 := by
  induction row with
  | nil => intro u i c h _; cases h
  | cons x r ih =>
    intro u i c hr hu
    cases u with
    | nil => cases hu
    | cons y u =>
      cases i with
      | zero =>
        simp only [List.set_cons_zero, dot_cons, List.getD_cons_zero]
        ring
      | succ i =>
        simp only [List.set_cons_succ, dot_cons, List.getD_cons_succ]
        rw [ih u i c (Nat.lt_of_succ_lt_succ hr) (Nat.lt_of_succ_lt_succ hu)]
        ring

theorem zipWith_mul_map_right {α : Type} (g : α → ℝ) :
    ∀ (w : Vec) (l : List α),
    List.zipWith (· * ·) w (l.map g) =
      List.zipWith (fun x row => x * g row) w l := by
  intro w
  induction w with
  | nil => intro l; rfl
  | cons x w ih =>
    intro l
    cases l with
    | nil => rfl
    | cons a l =>
      simp only [List.map_cons, List.zipWith_cons_cons]
      rw [ih l]

theorem zipWith_congr_mem {α β γ : Type} (f g : α → β → γ) :
    ∀ (a : List α) (b : List β),
    (∀ x ∈ a, ∀ y ∈ b, f x y = g x y) →
    List.zipWith f a b = List.zipWith g a b := by
  intro a
  induction a with
  | nil => intro b _; rfl
  | cons x a ih =>
    intro b h
    cases b with
    | nil => rfl
    | cons y b =>
      simp only [List.zipWith_cons_cons]
      rw [h x (by simp) y (by simp),
        ih b (fun x hx y hy =>
          h x (List.mem_cons_of_mem _ hx) y (List.mem_cons_of_mem _ hy))]

theorem sum_zipWith_mul_const {α β : Type} (f : α → β → ℝ) (c : ℝ) :
    ∀ (a : List α) (b : List β),
    (List.zipWith f a b).sum * c =
      (List.zipWith (fun x y => f x y * c) a b).sum := by
  intro a
  induction a with
  | nil => intro b; simp
  | cons x a ih =>
    intro b
    cases b with
    | nil => simp
    | cons y b =>
      simp only [List.zipWith_cons_cons, List.sum_cons]
      rw [add_mul, ih b]

theorem dot_map_zip (g h : List ℝ → ℝ) :
    ∀ (M : Mat) (w : Vec),
    dot (M.map g) (List.zipWith (· * ·) w (M.map h)) =
      (List.zipWith (fun x row => g row * (x * h row)) w M).sum := by
  intro M
  induction M with
  | nil => intro w; simp [dot]
  | cons row M ih =>
    intro w
    cases w with
    | nil => simp [dot]
    | cons x w =>
      simp only [List.map_cons, List.zipWith_cons_cons, dot_cons,
        List.sum_cons]
      rw [ih w]

theorem lossValue_zip (M : Mat) (w0 y q : Vec) :
    lossValue M w0 y q =
      (List.zipWith
        (fun w row =>
          w * Real.exp (-(dot row (List.zipWith (· * ·) (ySigned y) q))))
        w0 M).sum := by
  simp only [lossValue, matVec, List.map_map]
  rw [zipWith_mul_map_right]
  rfl

theorem hasDerivAt_exp_sum (P : List (ℝ × ℝ × ℝ)) (t0 : ℝ) :
    HasDerivAt
      (fun t => (P.map (fun p => p.1 * Real.exp (-(p.2.1 + p.2.2 * t)))).sum)
      (-((P.map
        (fun p => p.2.2 * (p.1 * Real.exp (-(p.2.1 + p.2.2 * t0))))).sum))
      t0 := by
  induction P with
  | nil => simpa using hasDerivAt_const t0 (0 : ℝ)
  | cons p P ih =>
    simp only [List.map_cons, List.sum_cons]
    have h1 : HasDerivAt (fun t => p.2.1 + p.2.2 * t) p.2.2 t0 := by
      simpa using (hasDerivAt_const t0 p.2.1).add ((hasDerivAt_id t0).const_mul p.2.2)
    have h2 : HasDerivAt (fun t => Real.exp (-(p.2.1 + p.2.2 * t)))
        (Real.exp (-(p.2.1 + p.2.2 * t0)) * -p.2.2) t0 := h1.neg.exp
    have h3 := (h2.const_mul p.1).add ih
    convert h3 using 1
    ring

/-- C2 (amended): over a rectangular coefficient matrix, `negative_gradient`
returns, at every coordinate `i`, `y_signed_i * (Mᵗ · (w0 ⊙ e))_i` with
`e = exp(-M · (y_signed ⊙ pred))`, and this value is exactly minus the
partial derivative of the loss with respect to `pred_i` — the quantity a
finite-difference estimate approximates as its step shrinks.  A fixed step
of `1e-6` need not land within `1e-4` of it; see the counterexample. -/
theorem C2_negative_gradient (M : Mat) (n : Nat) (w0 y pred : Vec)
    (hrect : ∀ row ∈ M, row.length = n) (hy : y.length = n)
    (hp : pred.length = n) (i : Nat) (hi : i < n) :
    negative_gradient M n w0 y pred = .ok (negGradientValue M n w0 y pred) ∧
    (negGradientValue M n w0 y pred).getD i 0 =
      (ySigned y).getD i 0 *
        (matVec (transp n M)
          (List.zipWith (· * ·) w0
            ((matVec M (List.zipWith (· * ·) (ySigned y) pred)).map
              (fun v => Real.exp (-v))))).getD i 0 ∧
    HasDerivAt (fun t => lossValue M w0 y (pred.set i t))
      (-((negGradientValue M n w0 y pred).getD i 0)) (pred.getD i 0) := by
  have hys : (ySigned y).length = n := by simp [ySigned, hy]
  have hiy : i < (ySigned y).length := by rw [hys]; exact hi
  have hip : i < pred.length := by rw [hp]; exact hi
  refine ⟨by simp [negative_gradient, negGradientValue, hy, hp], ?_, ?_⟩
  · simp only [negGradientValue]
    rw [getD_zipWith (· * ·) _ (ySigned y) i 0 0 0
      (by simpa [matVec, transp] using hi) hiy]
    exact mul_comm _ _
  · set u := List.zipWith (· * ·) (ySigned y) pred with hu_def
    set s := (ySigned y).getD i 0 with hs_def
    have hiu : i < u.length := by
      rw [hu_def, List.length_zipWith, hys, hp]
      simpa using hi
    have hui : u.getD i 0 = s * pred.getD i 0 := by
      rw [hu_def, hs_def]
      exact getD_zipWith (· * ·) (ySigned y) pred i 0 0 0 hiy hip
    set P := List.zipWith
      (fun w row =>
        (w, dot row u - row.getD i 0 * u.getD i 0, row.getD i 0 * s))
      w0 M with hP_def
    have hfun : ∀ t, lossValue M w0 y (pred.set i t) =
        (P.map (fun p => p.1 * Real.exp (-(p.2.1 + p.2.2 * t)))).sum := by
      intro t
      rw [lossValue_zip]
      have hset : List.zipWith (· * ·) (ySigned y) (pred.set i t) =
          u.set i (s * t) := by
        rw [hu_def, hs_def]
        exact zipWith_mul_set_right (ySigned y) pred i t hiy
      simp only [hset]
      rw [hP_def, List.map_zipWith]
      refine congrArg List.sum (zipWith_congr_mem _ _ w0 M ?_)
      intro w _ row hrow
      rw [dot_set row u i (s * t) (by rw [hrect row hrow]; exact hi) hiu]
      have harg : dot row u + row.getD i 0 * (s * t) -
          row.getD i 0 * u.getD i 0 =
          (dot row u - row.getD i 0 * u.getD i 0) + row.getD i 0 * s * t := by
        ring
      rw [harg]
    have hPsum : (P.map (fun p =>
        p.2.2 * (p.1 * Real.exp (-(p.2.1 + p.2.2 * pred.getD i 0))))).sum =
        (List.zipWith
          (fun x row => (row.getD i 0 * s) * (x * Real.exp (-(dot row u))))
          w0 M).sum := by
      rw [hP_def, List.map_zipWith]
      refine congrArg List.sum (zipWith_congr_mem _ _ w0 M ?_)
      intro w _ row _
      show (row.getD i 0 * s) *
        (w * Real.exp (-((dot row u - row.getD i 0 * u.getD i 0) +
          (row.getD i 0 * s) * pred.getD i 0))) = _
      have harg2 : (dot row u - row.getD i 0 * u.getD i 0) +
          (row.getD i 0 * s) * pred.getD i 0 = dot row u := by
        rw [hui]
        ring
      rw [harg2]
    have htr : (transp n M).getD i [] = M.map (fun row => row.getD i 0) := by
      simp only [transp]
      rw [getD_map (fun j => M.map (fun row => row.getD j 0))
        (List.range n) i [] 0 (by simpa using hi)]
      rw [getD_range n i 0 hi]
    have hval : (negGradientValue M n w0 y pred).getD i 0 =
        (List.zipWith
          (fun x row => (row.getD i 0 * s) * (x * Real.exp (-(dot row u))))
          w0 M).sum := by
      simp only [negGradientValue, matVec, List.map_map]
      simp only [← hu_def, ← hs_def]
      rw [getD_zipWith (· * ·) _ (ySigned y) i 0 0 0
        (by simpa [transp] using hi) hiy]
      rw [← hs_def]
      rw [getD_map _ (transp n M) i 0 [] (by simpa [transp] using hi)]
      rw [htr]
      rw [dot_map_zip (fun row => row.getD i 0) _ M w0]
      rw [sum_zipWith_mul_const]
      refine congrArg List.sum (zipWith_congr_mem _ _ w0 M ?_)
      intro w _ row _
      show row.getD i 0 * (w * Real.exp (-(dot row u))) * s = _
      ring
    have hgrad : (negGradientValue M n w0 y pred).getD i 0 =
        (P.map (fun p =>
          p.2.2 * (p.1 * Real.exp (-(p.2.1 + p.2.2 * pred.getD i 0))))).sum :=
      hval.trans hPsum.symm
    rw [funext hfun, hgrad]
    exact hasDerivAt_exp_sum P (pred.getD i 0)

theorem C2_negative_gradient_witness :
    HasDerivAt (fun t => lossValue [[2]] [1] [1] (List.set [0] 0 t))
      (-((negGradientValue [[2]] 1 [1] [1] [0]).getD 0 0))
      ([(0 : ℝ)].getD 0 0) ∧
    (negGradientValue [[2]] 1 [1] [1] [0]).getD 0 0 = 2 := by
  constructor
  · exact (C2_negative_gradient [[2]] 1 [1] [1] [0]
      (by intro row h; simp at h; subst h; rfl) rfl rfl 0 (by decide)).2.2
  · norm_num [negGradientValue, matVec, dot, ySigned, transp, List.range_succ, List.range_zero]

/-- C2 counterexample: over the 1×1 coefficient matrix `[[10^7]]` with unit
weight, label `y = [1]` and score `pred = [0]`, the analytic negative
gradient is `10^7`, while the forward finite-difference quotient of the
loss with step `1e-6` is `(exp(-10) - 1)/1e-6`, which stays above `-10^6`;
their sum exceeds `9·10^6`, so the claimed `1e-4` tolerance fails. -/
theorem C2_fd_tolerance_counterexample :
    negative_gradient [[10 ^ 7]] 1 [1] [1] [0] = .ok [10 ^ 7] ∧
    lossCall [[10 ^ 7]] 1 [1] [1] [0] = .ok 1 ∧
    lossCall [[10 ^ 7]] 1 [1] [1] [1e-6] = .ok (Real.exp (-10)) ∧
    ¬ |(10 ^ 7 : ℝ) + (Real.exp (-10) - 1) / 1e-6| < 1e-4 := by
  refine ⟨?_, ?_, ?_, ?_⟩
  · norm_num [negative_gradient, negGradientValue, matVec, dot, ySigned,
      transp, List.range_succ, List.range_zero]
  · norm_num [lossCall, lossValue, matVec, dot, ySigned]
  · norm_num [lossCall, lossValue, matVec, dot, ySigned]
  · rw [not_lt]
    have h1 : (Real.exp (-10) - 1) / 1e-6 = (Real.exp (-10) - 1) * 1000000 := by
      rw [div_eq_mul_inv]
      norm_num
    rw [h1]
    refine le_trans ?_ (le_abs_self _)
    nlinarith [Real.exp_pos (-10)]

theorem C9_get_stages_witness :
    (getStagesFor [[[5]], [[6]], [[7]]] [2, 9]).lookup 2 = some [[7]] ∧
    (getStagesFor [[[5]], [[6]], [[7]]] [2, 9]).lookup 9 = none ∧
    (getStagesFor [[[5]], [[6]], [[7]]] [2, 9]).lookup 1 = none := by
  have h := (C9_get_stages [] [2, 9]).2.2 [[[5]], [[6]], [[7]]]
  refine ⟨?_, ?_, ?_⟩
  · rw [h 2]
    simp
  · rw [h 9]
    simp
  · rw [h 1]
    simp

end LhcbTriggerMl
